import Mathlib

/-!
Verification of the memberberries storage and retrieval engine
(`src/berry_manager.py`, class `BerryManager`).

The development shallowly embeds the parts of the source the claims are
about:

* the embedding and similarity engine (`_simple_embedding`,
  `_cosine_similarity`);
* per-kind semantic search (`search_solutions`, `search_errors`);
* the archive / unarchive / refine prefix-matching mutations
  (`archive_memory`, `unarchive_memory`, `refine_memory`);
* gravitational staleness decay (`apply_staleness_decay`);
* the durable persistence layer (`_save_index`, `_load_index`,
  `_recover_from_backup`, `_sanitize_index`);
* auto-pin pattern detection (`AUTO_PIN_PATTERNS`, `detect_auto_pin`).

Python floats are modelled as rationals (`ℚ`); Python's process-seeded
string `hash` is modelled as an explicit parameter `pyHash : String → Int`;
fallible code returns `Except`/pairs carrying the unchanged state.
-/

namespace Memberberries

/-! ## Embedding engine (`_simple_embedding`)

Source (`berry_manager.py:325-350`):
```
text = text.lower()
words = text.split()
vocab = set(words)
embedding = np.zeros(128)
for word in vocab:
    hash_val = hash(word) % 128
    embedding[hash_val] += 1
norm = np.linalg.norm(embedding)
if norm > 0:
    embedding = embedding / norm
return embedding
```
We model the bucket-count vector (the value of `embedding` just before the
final L2 normalisation) as a function `Fin 128 → ℕ`.  The normalisation
divides by a positive scalar, which leaves cosine similarity unchanged, so
all ranking claims are stated over the count vectors; the correspondence
with the real-valued cosine of the normalised vectors is proved below
(`cosSq_eq_sq_cosine_similarity`).  `hash` is per-process seeded, so it is
an explicit parameter `pyHash`.
-/

/-- Helper for `pyWords`: scan the character list, accumulating the
current word (in reverse) and emitting it at each whitespace run / at the
end.  This is `str.split()` with no argument: split on whitespace runs,
dropping empty pieces. -/
def wordsAux : List Char → List Char → List String
  | [], acc => if acc.isEmpty then [] else [String.mk acc.reverse]
  | c :: cs, acc =>
      if c.isWhitespace then
        if acc.isEmpty then wordsAux cs []
        else String.mk acc.reverse :: wordsAux cs []
      else wordsAux cs (c :: acc)

/-- `text.lower().split()`: lower-case (per character — the inputs here
are ASCII), then split on whitespace runs. -/
def pyWords (text : String) : List String :=
  wordsAux (text.data.map Char.toLower) []

/-- `set(words)` — the distinct tokens.  Iteration order of a Python set is
unspecified, but the bucket counts below are order independent, so any
duplicate-free enumeration is a faithful model; we use `List.dedup`. -/
def pyVocab (text : String) : List String :=
  (pyWords text).dedup

/-- `hash(word) % 128`: Python `%` on a possibly negative hash yields a
representative in `[0, 128)`, which is `Int.emod`. -/
def hashBucket (pyHash : String → Int) (w : String) : Fin 128 :=
  ⟨((pyHash w) % 128).toNat, by
    have h0 : (0:Int) ≤ (pyHash w) % 128 := Int.emod_nonneg _ (by decide)
    have h1 : (pyHash w) % 128 < 128 := Int.emod_lt_of_pos _ (by decide)
    omega⟩

/-- The `for word in vocab: embedding[hash(word) % 128] += 1` loop. -/
def simple_embedding (pyHash : String → Int) (text : String) : Fin 128 → ℕ :=
  (pyVocab text).foldl
    (fun emb w => Function.update emb (hashBucket pyHash w) (emb (hashBucket pyHash w) + 1))
    (fun _ => 0)

/-! ## Similarity (`_cosine_similarity`)

Source (`berry_manager.py:352-361`): cosine similarity, returning `0.0` if
either vector has zero norm.  The vectors it is applied to are the stored
embeddings — count vectors scaled by `1/‖counts‖` when non-zero — so the
cosine of two stored embeddings equals the cosine of the two raw count
vectors.  Cosine of non-negative vectors is non-negative, hence comparing
cosines is equivalent to comparing their squares, and the square of the
cosine is the rational `(u·v)² / ((u·u)(v·v))` (with Lean's `x/0 = 0`
convention covering exactly the code's zero-norm branch).  All ranking is
therefore modelled with the rational `cosSq`; the bridge to the real-valued
cosine is `cosSq_eq_sq_cosine_similarity` / `cosine_lt_iff_cosSq_lt`. -/

/-- Dot product of two count vectors. -/
def dotN (u v : Fin 128 → ℕ) : ℕ :=
  ∑ i : Fin 128, u i * v i

/-- The square of `_cosine_similarity` on raw count vectors, as an exact
rational.  Division by zero (Lean convention `x / 0 = 0`) coincides with
the code's `if norm1 == 0 or norm2 == 0: return 0.0` branch. -/
def cosSq (u v : Fin 128 → ℕ) : ℚ :=
  ((dotN u v : ℚ)) ^ 2 / ((dotN u u : ℚ) * (dotN v v : ℚ))

/-- The real-valued cosine of `_cosine_similarity`, for the correspondence
proofs. -/
noncomputable def cosine_similarity (u v : Fin 128 → ℕ) : ℝ :=
  if (dotN u u = 0) ∨ (dotN v v = 0) then 0
  else (dotN u v : ℝ) / (Real.sqrt (dotN u u) * Real.sqrt (dotN v v))

/-! ## The ranking sort

`search_*` builds `scored = [(similarity, record), ...]` in the records'
index order and runs `scored.sort(reverse=True, key=lambda x: x[0])`.
Python's `list.sort` is a stable sort, and with `reverse=True` equal keys
keep their original relative order.  A stable descending sort is uniquely
determined by the three properties proved below (permutation, descending
keys, key-level filter preservation), so the insertion sort used here is
observationally the code's sort. -/

/-- Stable insertion of `x` (which originally came after every element of
the list) into a descending-sorted list. -/
def insertDescBy {α : Type} (key : α → ℚ) (x : α) : List α → List α
  | [] => [x]
  | y :: ys => if key x < key y then y :: insertDescBy key x ys else x :: y :: ys

/-- Stable descending sort by `key` (`list.sort(reverse=True, key=...)`). -/
def sortDescBy {α : Type} (key : α → ℚ) : List α → List α
  | [] => []
  | x :: xs => insertDescBy key x (sortDescBy key xs)

/-! ### When is the cosine exactly 1?

`cosSq u v = 1` can hold even for distinct texts: two texts with the same
token set, or with token sets that collide into proportional bucket-count
vectors, have the same normalised embedding.  The exact condition is
collinearity of the count vectors (equality case of Cauchy–Schwarz, via
the Lagrange identity). -/

/-- The two count vectors are proportional (over ℕ, cross-multiplication
form).  For nonzero vectors this says the normalised embeddings
coincide. -/
def CollinearNN (u v : Fin 128 → ℕ) : Prop :=
  ∀ i j, u i * v j = u j * v i

instance (u v : Fin 128 → ℕ) : Decidable (CollinearNN u v) := by
  unfold CollinearNN
  infer_instance

/-! ## The typed memory store

The Python index holds, per kind, a list of plain dictionaries with
optional keys (the spec's §9 explicitly describes the records as "one
dictionary with optional keys").  We model a record as a structure whose
optional fields are `Option`-valued: `none` models an absent key, and
`mem.get('f', '')` becomes `(r.f).getD ""`.  `archived` models
`mem.get('archived')` being truthy.  The stored `embedding` is kept as the
bucket-count vector (see the embedding section: the L2 normalisation the
source applies before storing cancels inside `_cosine_similarity`). -/

structure MemRec where
  id : Option String
  problem : Option String
  solution : Option String
  error_message : Option String
  resolution : Option String
  pattern : Option String
  tags : List String
  timestamp : String
  embedding : Fin 128 → ℕ
  archived : Bool
  archived_at : Option String
  refined : Bool
  refined_at : Option String
  gravitational_mass : Option ℚ
deriving DecidableEq

/-- An entry of the `"pinned"` list:
`{id, name, content, category, tags, sensitive, timestamp, pinned: True}`. -/
structure PinnedMem where
  id : String
  name : String
  content : String
  category : String
  tags : List String
  sensitive : Bool
  timestamp : String
deriving DecidableEq

/-- A value of the `"memory_gravity"` map:
`{mass, references, tasks, last_accessed}`.  `last_accessed` is modelled
as a day count (`(now - last_dt).days` compares whole days); `none` models
a missing or unparsable timestamp, which the decay loop skips. -/
structure GravityEntry where
  mass : ℚ
  references : ℕ
  tasks : List String
  last_accessed : Option Int
deriving DecidableEq

/-- The in-memory `self.index`.  `dependencies` and `environment` are
dictionaries keyed by name/env_type; iterating them (as `archive_memory`
does) yields their *keys*, so only the key lists matter here.  `projects`,
`sessions` and the learned-signal counters play no role in any claim's
code path except that `sessions` records exist and are never scanned by
archive/refine, so `sessions` is kept. -/
structure Index where
  preferences : List MemRec
  solutions : List MemRec
  sessions : List MemRec
  errors : List MemRec
  antipatterns : List MemRec
  git_conventions : List MemRec
  dependencies : List String
  testing : List MemRec
  environment : List String
  api_notes : List MemRec
  pinned : List PinnedMem
  memory_gravity : List (String × GravityEntry)
deriving DecidableEq

/-! ### Search (`search_solutions`, `search_errors`)

```
def search_solutions(self, query, top_k=3):
    query_embedding = self._simple_embedding(query)
    scored_solutions = []
    for solution in self.index["solutions"]:
        if solution.get('archived'):
            continue
        ...
        scored_solutions.append((similarity, solution))
    scored_solutions.sort(reverse=True, key=lambda x: x[0])
    return [sol for _, sol in scored_solutions[:top_k]]
```
`search_errors` is identical except that it has **no** archived check.
The float similarity is replaced by its order-isomorphic exact square
`cosSq` (see `cosine_lt_iff_cosSq_lt`). -/

def search_solutions (pyHash : String → Int) (st : Index) (query : String)
    (top_k : ℕ) : List MemRec :=
  let query_embedding := simple_embedding pyHash query
  let scored := (st.solutions.filter (fun s => !s.archived)).map
    (fun s => (cosSq query_embedding s.embedding, s))
  ((sortDescBy Prod.fst scored).map Prod.snd).take top_k

def search_errors (pyHash : String → Int) (st : Index) (query : String)
    (top_k : ℕ) : List MemRec :=
  let query_embedding := simple_embedding pyHash query
  let scored := st.errors.map (fun e => (cosSq query_embedding e.embedding, e))
  ((sortDescBy Prod.fst scored).map Prod.snd).take top_k

/-! ### Concrete fixtures used by counterexamples and witnesses -/

/-- A record with every optional key absent (used as a base for concrete
fixtures). -/
def blankRec : MemRec where
  id := none
  problem := none
  solution := none
  error_message := none
  resolution := none
  pattern := none
  tags := []
  timestamp := ""
  embedding := fun _ => 0
  archived := false
  archived_at := none
  refined := false
  refined_at := none
  gravitational_mass := none

/-- An index with no records at all. -/
def emptyIndex : Index where
  preferences := []
  solutions := []
  sessions := []
  errors := []
  antipatterns := []
  git_conventions := []
  dependencies := []
  testing := []
  environment := []
  api_notes := []
  pinned := []
  memory_gravity := []

/-- A concrete stand-in for the process's string hash (string length). -/
def hashW : String → Int := fun s => (s.length : Int)

/-- The salient concatenated text of a solution record, exactly as
`add_solution` embeds it: `f"{problem} {solution}"`. -/
def solutionSalientText (r : MemRec) : String :=
  (r.problem.getD "") ++ " " ++ (r.solution.getD "")

/-- Fixture solution record whose stored embedding is the embedding of its
own salient text (which is what `add_solution` stores). -/
def recW : MemRec :=
  { blankRec with
      id := some "s1"
      problem := some "alpha"
      solution := some "beta"
      embedding := simple_embedding hashW "alpha beta" }

/-- A second, non-collinear solution record. -/
def othW : MemRec :=
  { blankRec with
      id := some "s2"
      problem := some "xx"
      solution := some "yyy"
      embedding := simple_embedding hashW "xx yyy" }

/-- Store holding the two fixture solutions (other record first). -/
def stW : Index := { emptyIndex with solutions := [othW, recW] }

/-- Distinct-text records with identical token sets: salient texts
`"dup dup"` and `"dup "` both tokenise to `{"dup"}`. -/
def dupA : MemRec :=
  { blankRec with
      id := some "d1"
      problem := some "dup"
      solution := some "dup"
      embedding := simple_embedding hashW "dup dup" }

/-- Same token set as `dupA` but different text; inserted later. -/
def dupB : MemRec :=
  { blankRec with
      id := some "d2"
      problem := some "dup"
      solution := some ""
      embedding := simple_embedding hashW "dup " }

/-- Store with `dupA` inserted before `dupB`. -/
def stDup : Index := { emptyIndex with solutions := [dupA, dupB] }

/-- An archived error record (zero embedding). -/
def archivedErr : MemRec :=
  { blankRec with
      id := some "e1"
      error_message := some "boom"
      archived := true }

/-- Store holding only the archived error. -/
def stErr : Index := { emptyIndex with errors := [archivedErr] }

/-! ### Archive / unarchive / refine (`archive_memory`, `unarchive_memory`,
`refine_memory`)

All three look a record up by `mem.get('id', '').startswith(memory_id)`
and mutate the *first* match, scanning the kinds in a fixed order.
`'pinned'` is never among the scanned kinds.  Each saves the index on a
match; `_save_index` (persistence section) does not change the scanned
records, so it is not repeated here. -/

/-- `str.startswith(prefix)` as a character-list prefix check (matching on
the prefix first, so that an empty prefix accepts every string). -/
def listStarts (s pre : List Char) : Bool :=
  match pre with
  | [] => true
  | p :: ps =>
    match s with
    | [] => false
    | c :: cs => c = p && listStarts cs ps

/-- `s.startswith(pre)`. -/
def pyStartswith (s pre : String) : Bool :=
  listStarts s.data pre.data

/-- `mem.get('id', '').startswith(memory_id)`. -/
def idMatches (memory_id : String) (r : MemRec) : Bool :=
  pyStartswith (r.id.getD "") memory_id

/-- Mutate the first record of the list satisfying `p` (the Python
`for mem in memories: if ...: ...; return True` loop); `none` when no
record matches. -/
def updateFirstBy (p : MemRec → Bool) (upd : MemRec → MemRec) :
    List MemRec → Option (List MemRec)
  | [] => none
  | r :: rs =>
      if p r then some (upd r :: rs)
      else (updateFirstBy p upd rs).map (fun rs' => r :: rs')

/-- The in-place mutation `archive_memory` applies to a matched record:
```
mem['archived'] = True
mem['archived_at'] = datetime.now().isoformat()
current_mass = mem.get('gravitational_mass', 1.0)
mem['gravitational_mass'] = max(0.1, current_mass * 0.5)
```
-/
def archiveUpdate (now : String) (r : MemRec) : MemRec :=
  { r with
      archived := true
      archived_at := some now
      gravitational_mass := some (max (1/10) ((r.gravitational_mass.getD 1) * (1/2))) }

/-- `archive_memory` scans, in order, the index keys
`['solutions', 'errors', 'antipatterns', 'preferences', 'git_conventions',
'dependencies', 'testing', 'env_configs', 'api_notes']`.  Three quirks are
modelled faithfully: `dependencies` is a dict, so iterating it yields its
string keys and `mem.get(...)` on a string raises `AttributeError`
(reaching a non-empty dependencies map without an earlier match aborts the
call); the index has no `'env_configs'` key (`self.index.get('env_configs',
[])` is always `[]` — the environment notes live under `'environment'` and
are never scanned); and `'pinned'` is not scanned at all.  The result is
the return value (or the raised error) paired with the resulting index. -/
def archive_memory (now : String) (st : Index) (memory_id : String) :
    Except String Bool × Index :=
  match updateFirstBy (idMatches memory_id) (archiveUpdate now) st.solutions with
  | some l => (.ok true, { st with solutions := l })
  | none =>
    match updateFirstBy (idMatches memory_id) (archiveUpdate now) st.errors with
    | some l => (.ok true, { st with errors := l })
    | none =>
      match updateFirstBy (idMatches memory_id) (archiveUpdate now) st.antipatterns with
      | some l => (.ok true, { st with antipatterns := l })
      | none =>
        match updateFirstBy (idMatches memory_id) (archiveUpdate now) st.preferences with
        | some l => (.ok true, { st with preferences := l })
        | none =>
          match updateFirstBy (idMatches memory_id) (archiveUpdate now) st.git_conventions with
          | some l => (.ok true, { st with git_conventions := l })
          | none =>
            if st.dependencies ≠ [] then (.error "AttributeError", st)
            else
              match updateFirstBy (idMatches memory_id) (archiveUpdate now) st.testing with
              | some l => (.ok true, { st with testing := l })
              | none =>
                match updateFirstBy (idMatches memory_id) (archiveUpdate now) st.api_notes with
                | some l => (.ok true, { st with api_notes := l })
                | none => (.ok false, st)

/-- The in-place mutation `unarchive_memory` applies (it additionally
requires `mem.get('archived')` truthy to match):
```
mem['archived'] = False
mem.pop('archived_at', None)
mem['gravitational_mass'] = mem.get('gravitational_mass', 0.5) * 2
```
-/
def unarchiveUpdate (r : MemRec) : MemRec :=
  { r with
      archived := false
      archived_at := none
      gravitational_mass := some ((r.gravitational_mass.getD (1/2)) * 2) }

/-- `unarchive_memory`: same scan order and dict quirks as
`archive_memory`, but a record matches only if its id starts with the
argument *and* it is archived. -/
def unarchive_memory (st : Index) (memory_id : String) :
    Except String Bool × Index :=
  match updateFirstBy (fun r => idMatches memory_id r && r.archived) unarchiveUpdate
      st.solutions with
  | some l => (.ok true, { st with solutions := l })
  | none =>
    match updateFirstBy (fun r => idMatches memory_id r && r.archived) unarchiveUpdate
        st.errors with
    | some l => (.ok true, { st with errors := l })
    | none =>
      match updateFirstBy (fun r => idMatches memory_id r && r.archived) unarchiveUpdate
          st.antipatterns with
      | some l => (.ok true, { st with antipatterns := l })
      | none =>
        match updateFirstBy (fun r => idMatches memory_id r && r.archived) unarchiveUpdate
            st.preferences with
        | some l => (.ok true, { st with preferences := l })
        | none =>
          match updateFirstBy (fun r => idMatches memory_id r && r.archived) unarchiveUpdate
              st.git_conventions with
          | some l => (.ok true, { st with git_conventions := l })
          | none =>
            if st.dependencies ≠ [] then (.error "AttributeError", st)
            else
              match updateFirstBy (fun r => idMatches memory_id r && r.archived)
                  unarchiveUpdate st.testing with
              | some l => (.ok true, { st with testing := l })
              | none =>
                match updateFirstBy (fun r => idMatches memory_id r && r.archived)
                    unarchiveUpdate st.api_notes with
                | some l => (.ok true, { st with api_notes := l })
                | none => (.ok false, st)

/-- The content field `refine_memory` overwrites for a given scan pass. -/
inductive RefField where
  | problemF | solutionF | errorMessageF | resolutionF | patternF
deriving DecidableEq

/-- `if content_field in mem: mem[content_field] = new_content` — the
field is overwritten only when the key is present. -/
def setField (f : RefField) (v : String) (r : MemRec) : MemRec :=
  match f with
  | .problemF => if (r.problem).isSome then { r with problem := some v } else r
  | .solutionF => if (r.solution).isSome then { r with solution := some v } else r
  | .errorMessageF =>
      if (r.error_message).isSome then { r with error_message := some v } else r
  | .resolutionF => if (r.resolution).isSome then { r with resolution := some v } else r
  | .patternF => if (r.pattern).isSome then { r with pattern := some v } else r

/-- The in-place mutation `refine_memory` applies to a matched record:
overwrite the pass's content field (when present), set
`refined = True` / `refined_at`, and recompute the embedding from
`mem.get('problem','') + mem.get('solution','') + mem.get('error_message','')
+ mem.get('resolution','')` — a separator-free concatenation that does not
include `pattern`. -/
def refineUpdate (pyHash : String → Int) (now : String) (f : RefField)
    (new_content : String) (r : MemRec) : MemRec :=
  let r1 := setField f new_content r
  let r2 := { r1 with refined := true, refined_at := some now }
  { r2 with
      embedding := simple_embedding pyHash
        ((r2.problem.getD "") ++ (r2.solution.getD "")
          ++ (r2.error_message.getD "") ++ (r2.resolution.getD "")) }

/-- `refine_memory` scans `[('solutions', 'problem'),
('solutions', 'solution'), ('errors', 'error_message'),
('errors', 'resolution'), ('antipatterns', 'pattern')]` in order and
mutates the first id-prefix match.  `'pinned'` is never scanned. -/
def refine_memory (pyHash : String → Int) (now : String) (st : Index)
    (memory_id new_content : String) : Bool × Index :=
  match updateFirstBy (idMatches memory_id)
      (refineUpdate pyHash now .problemF new_content) st.solutions with
  | some l => (true, { st with solutions := l })
  | none =>
    match updateFirstBy (idMatches memory_id)
        (refineUpdate pyHash now .solutionF new_content) st.solutions with
    | some l => (true, { st with solutions := l })
    | none =>
      match updateFirstBy (idMatches memory_id)
          (refineUpdate pyHash now .errorMessageF new_content) st.errors with
      | some l => (true, { st with errors := l })
      | none =>
        match updateFirstBy (idMatches memory_id)
            (refineUpdate pyHash now .resolutionF new_content) st.errors with
        | some l => (true, { st with errors := l })
        | none =>
          match updateFirstBy (idMatches memory_id)
              (refineUpdate pyHash now .patternF new_content) st.antipatterns with
          | some l => (true, { st with antipatterns := l })
          | none => (false, st)

/-! ### Staleness decay (`apply_staleness_decay`)

```
for mid, gdata in gravity.items():
    last_accessed = gdata.get("last_accessed")
    if last_accessed:
        try:
            last_dt = datetime.fromisoformat(last_accessed)
            days_inactive = (now - last_dt).days
            if days_inactive >= decay_days:
                old_mass = gdata.get("mass", 1)
                gdata["mass"] = max(0.1, old_mass * decay_factor)
        except (ValueError, TypeError):
            pass
```
Timestamps are modelled as day counts (`Int`); a `none` `last_accessed`
models the missing / unparsable cases the loop skips.  Note the loop does
**not** refresh `last_accessed`, so repeated calls within the same stale
window compound, and it never consults the pinned list. -/

def decayEntry (now decay_days : Int) (decay_factor : ℚ) (g : GravityEntry) :
    GravityEntry :=
  match g.last_accessed with
  | some t =>
      if decay_days ≤ now - t then { g with mass := max (1/10) (g.mass * decay_factor) }
      else g
  | none => g

def apply_staleness_decay (now decay_days : Int) (decay_factor : ℚ) (st : Index) :
    Index :=
  { st with
      memory_gravity := st.memory_gravity.map
        (fun p => (p.1, decayEntry now decay_days decay_factor p.2)) }

/-- Modelled from the claim's words: archiving with the empty id marks the
first record of the first non-empty scanned list kind.  Compared with
`archive_memory` in the C10 theorem. -/
def archiveFirstSpec (now : String) (st : Index) : Index :=
  match st.solutions with
  | r :: rs => { st with solutions := archiveUpdate now r :: rs }
  | [] =>
    match st.errors with
    | r :: rs => { st with errors := archiveUpdate now r :: rs }
    | [] =>
      match st.antipatterns with
      | r :: rs => { st with antipatterns := archiveUpdate now r :: rs }
      | [] =>
        match st.preferences with
        | r :: rs => { st with preferences := archiveUpdate now r :: rs }
        | [] =>
          match st.git_conventions with
          | r :: rs => { st with git_conventions := archiveUpdate now r :: rs }
          | [] =>
            match st.testing with
            | r :: rs => { st with testing := archiveUpdate now r :: rs }
            | [] =>
              match st.api_notes with
              | r :: rs => { st with api_notes := archiveUpdate now r :: rs }
              | [] => st

/-- Fixture pinned memory. -/
def pinW : PinnedMem where
  id := "p1"
  name := "VPS SSH"
  content := "ssh root at host"
  category := "credentials"
  tags := []
  sensitive := true
  timestamp := ""

/-- Fixture gravity entry: mass 1.0, last accessed at day 0. -/
def gW : GravityEntry where
  mass := 1
  references := 0
  tasks := []
  last_accessed := some 0

/-- Store with a pinned record whose id also carries gravity. -/
def stPin : Index := { emptyIndex with pinned := [pinW], memory_gravity := [("p1", gW)] }

/-- Store whose only record is an environment note (dict key "local"). -/
def stEnv : Index := { emptyIndex with environment := ["local"] }

/-- Scenario D store: one tracked memory, mass 1.0, last accessed 10 days
before the decay call. -/
def stScen : Index := { emptyIndex with memory_gravity := [("m", gW)] }

/-! ## Durable persistence layer (`_save_index`, `_load_index`,
`_recover_from_backup`)

The layer is modelled over an abstract file-content type `C` with a parse
function `C → Option PIndex` (`json.load`: `none` = raises
`JSONDecodeError`).  A parsed index document is a top-level JSON object,
modelled as an association list of top-level keys. -/

/-- A JSON value, as far as the index cares: strings (the sanitizer's
target), other scalars (`atom` — numbers/booleans/null, which both the
sanitizer and the schema merge pass through untouched), arrays and
objects. -/
inductive JVal where
  | str : String → JVal
  | atom : JVal
  | arr : List JVal → JVal
  | obj : List (String × JVal) → JVal

/-- A parsed index document: the top-level JSON object. -/
abbrev PIndex : Type := List (String × JVal)

/-- `default_index` from `_load_index` — all fifteen top-level keys with
their empty defaults. -/
def defaultIndex : PIndex :=
  [("preferences", .arr []),
   ("projects", .obj []),
   ("solutions", .arr []),
   ("sessions", .arr []),
   ("errors", .arr []),
   ("antipatterns", .arr []),
   ("git_conventions", .arr []),
   ("dependencies", .obj []),
   ("testing", .arr []),
   ("environment", .obj []),
   ("api_notes", .arr []),
   ("pinned", .arr []),
   ("learned_signals",
     .obj [("emphasis", .obj []), ("repeated", .obj []), ("effective", .arr [])]),
   ("task_clusters", .obj []),
   ("memory_gravity", .obj [])]

/-- `for key in default_index: if key not in loaded: loaded[key] = default`
— fill in the missing default-schema top-level keys. -/
def mergeDefaults (loaded : PIndex) : PIndex :=
  loaded ++ defaultIndex.filter (fun kv => ((loaded.lookup kv.1).isNone : Bool))

/-- The files `_save_index` / `_load_index` touch, relative to the storage
root: `berry_index.json`, `.json.bak`, `.json.bak2`, `.json.corrupted`,
and the `berry_index_*.json` temp file.  `none` = the file does not
exist. -/
structure PFS (C : Type) where
  indexFile : Option C
  bak : Option C
  bak2 : Option C
  corrupted : Option C
  temp : Option C
deriving DecidableEq

/-- `self.index_path.rename(corrupted_path)` — move the corrupted index
aside (the code swallows rename errors; the successful rename is
modelled). -/
def quarantineIndex {C : Type} (fs : PFS C) : PFS C :=
  { fs with corrupted := fs.indexFile, indexFile := none }

/-- `_recover_from_backup`: try `.json.bak` then `.json.bak2`; on the
first one that exists and parses, quarantine the corrupted index and
return the backup's content merged with the default schema; if neither
works, quarantine and start from the default schema.  Always returns —
never raises. -/
def recover_from_backup {C : Type} (parse : C → Option PIndex) (fs : PFS C) :
    PIndex × PFS C :=
  match fs.bak with
  | some cb =>
    match parse cb with
    | some loaded => (mergeDefaults loaded, quarantineIndex fs)
    | none =>
      match fs.bak2 with
      | some cb2 =>
        match parse cb2 with
        | some loaded => (mergeDefaults loaded, quarantineIndex fs)
        | none => (defaultIndex, quarantineIndex fs)
      | none => (defaultIndex, quarantineIndex fs)
  | none =>
    match fs.bak2 with
    | some cb2 =>
      match parse cb2 with
      | some loaded => (mergeDefaults loaded, quarantineIndex fs)
      | none => (defaultIndex, quarantineIndex fs)
    | none => (defaultIndex, quarantineIndex fs)

/-- `_load_index`: parse the index file, merging with the default schema;
on a parse failure, recover from the backup chain; if the file does not
exist, start from the default schema.  Total — loading never raises to
the caller. -/
def load_index {C : Type} (parse : C → Option PIndex) (fs : PFS C) :
    PIndex × PFS C :=
  match fs.indexFile with
  | some c =>
    match parse c with
    | some loaded => (mergeDefaults loaded, fs)
    | none => recover_from_backup parse fs
  | none => (defaultIndex, fs)

/-- The backup rotation at the top of `_save_index`: if the index file
exists — delete `.bak2`, promote `.bak` to `.bak2` (when `.bak` exists),
and copy the current index file to `.bak` (failures are swallowed; the
successful rotation is modelled). -/
def rotateBackups {C : Type} (fs : PFS C) : PFS C :=
  match fs.indexFile with
  | none => fs
  | some c =>
    match fs.bak with
    | some b => { fs with bak2 := some b, bak := some c }
    | none => { fs with bak := some c }

/-- `_save_index` after the rotation: write the serialized (sanitized)
index to a same-directory temp file, flush+fsync, re-parse the temp file
to validate it, then atomically rename it over the index file; on *any*
failure before the rename completes, unlink the temp file and raise
`RuntimeError("Failed to save index: ...")`.  `writeOk` models the write
/flush/fsync I/O succeeding and `validateOk` the re-parse succeeding; the
result pairs the raised error (if any) with the final file state. -/
def save_index {C : Type} (fs : PFS C) (content : C) (writeOk validateOk : Bool) :
    Option String × PFS C :=
  let fs1 := rotateBackups fs
  if writeOk then
    if validateOk then (none, { fs1 with indexFile := some content, temp := none })
    else (some "Failed to save index", { fs1 with temp := none })
  else (some "Failed to save index", { fs1 with temp := none })

/-- Concrete file state for the persistence witnesses: contents are
`Option PIndex` themselves and `parse` is the identity, so parse failure
is the content `none`. -/
def pfsW : PFS (Option PIndex) where
  indexFile := some (some [("solutions", .arr [])])
  bak := none
  bak2 := none
  corrupted := none
  temp := none

/-- Concrete corrupted-index file state for the C5 witness. -/
def pfsC5 : PFS (Option PIndex) where
  indexFile := some none
  bak := some (some [("solutions", .arr [.str "keep"])])
  bak2 := none
  corrupted := none
  temp := none

/-! ## Index sanitization (`_sanitize_index`)

```
def sanitize_string(s):
    s = re.sub(r'[\x00-\x08\x0b\x0c\x0e-\x1f\x7f]', '', s)
    if len(s) > 10000:
        s = s[:10000] + '...[truncated]'
    return s

def sanitize_dict(d): ... recurse through dicts (values) and lists ...
for key in self.index:
    self.index[key] = sanitize_dict(self.index[key])
```
-/

/-- The control characters the sanitizer strips: `\x00`-`\x08`, `\x0b`,
`\x0c`, `\x0e`-`\x1f`, `\x7f` (newline `\x0a`, tab `\x09` — and also
carriage return `\x0d` — survive). -/
def badCtrl (c : Char) : Bool :=
  decide (c.toNat ≤ 8) || c.toNat == 11 || c.toNat == 12
    || (decide (14 ≤ c.toNat) && decide (c.toNat ≤ 31)) || c.toNat == 127

/-- `sanitize_string`: strip the disallowed control characters, then if
more than 10000 characters remain, keep the first 10000 and append the
14-character `'...[truncated]'` marker. -/
def sanitize_string (s : String) : String :=
  if (s.data.filter (fun c => !(badCtrl c))).length > 10000 then
    String.mk ((s.data.filter (fun c => !(badCtrl c))).take 10000) ++ "...[truncated]"
  else String.mk (s.data.filter (fun c => !(badCtrl c)))

/-- `sanitize_dict`: recurse through object values and array elements,
sanitize every string, pass every other leaf through. (Object *keys* are
not sanitized — the code rebuilds `{k: sanitize_dict(v)}`.) -/
def sanitizeJVal : JVal → JVal
  | .str s => .str (sanitize_string s)
  | .atom => .atom
  | .arr l => .arr (l.attach.map (fun x => sanitizeJVal x.1))
  | .obj l => .obj (l.attach.map (fun kv => (kv.1.1, sanitizeJVal kv.1.2)))
termination_by v => sizeOf v
decreasing_by
  · have h1 := List.sizeOf_lt_of_mem x.2
    simp only [JVal.arr.sizeOf_spec]
    omega
  · have h1 := List.sizeOf_lt_of_mem kv.2
    have h2 : sizeOf kv.1.2 < sizeOf kv.1 := by
      obtain ⟨⟨a, b⟩, hab⟩ := kv
      simp only [Prod.mk.sizeOf_spec]
      omega
    simp only [JVal.obj.sizeOf_spec]
    omega

/-- The `for key in self.index: ...` loop — sanitize every top-level
value (top-level keys are likewise untouched). -/
def sanitize_index (idx : PIndex) : PIndex :=
  idx.map (fun kv => (kv.1, sanitizeJVal kv.2))

/-- A string with no disallowed control characters and at most
10000 + 14 characters. -/
def goodString (s : String) : Bool :=
  s.data.all (fun c => !(badCtrl c)) && decide (s.length ≤ 10014)

/-- Every string anywhere in the value (recursively) is good. -/
def stringsOK : JVal → Bool
  | .str s => goodString s
  | .atom => true
  | .arr l => l.attach.all (fun x => stringsOK x.1)
  | .obj l => l.attach.all (fun kv => stringsOK kv.1.2)
termination_by v => sizeOf v
decreasing_by
  · have h1 := List.sizeOf_lt_of_mem x.2
    simp only [JVal.arr.sizeOf_spec]
    omega
  · have h1 := List.sizeOf_lt_of_mem kv.2
    have h2 : sizeOf kv.1.2 < sizeOf kv.1 := by
      obtain ⟨⟨a, b⟩, hab⟩ := kv
      simp only [Prod.mk.sizeOf_spec]
      omega
    simp only [JVal.obj.sizeOf_spec]
    omega

/-! ## Auto-pin detection (`AUTO_PIN_PATTERNS`, `detect_auto_pin`)

`detect_auto_pin` tries each `(pattern, category, description)` in order
with `re.search(pattern, text, re.IGNORECASE)` and returns the first
match's metadata.  The twelve patterns use only a small regex fragment —
literal characters, single-character classes under greedy counted
quantifiers (`+`, `?`, `{1,3}`, `{20,}`), and optional groups `(?:...)?` —
which is embedded as a tiny backtracking matcher.  The matcher enumerates
continuations in Python's preference order (greedy: longest repetition
first, optional group present first), and `re.search` semantics are the
leftmost start position with a match, taking the backtracker's first
result there. -/

/-- One regex item: a literal character (compared case-insensitively), a
character class with a `{lo, hi}` counted greedy quantifier (`hi = none`
is unbounded), or an optional group `(?:...)?`. -/
inductive RItem where
  | lit : Char → RItem
  | cls : (Char → Bool) → ℕ → Option ℕ → RItem
  | grpOpt : List RItem → RItem

/-- Length of the longest prefix of `s` whose characters satisfy `p`. -/
def countLeading (p : Char → Bool) : List Char → ℕ
  | [] => 0
  | c :: cs => if p c then countLeading p cs + 1 else 0

/-- Fuel-indexed backtracking matcher: all suffixes of `s` remaining
after matching the item sequence, in Python's backtracking preference
order.  Each recursive call strictly decreases `s.length +` total item
size, so the fuel supplied by `searchPat` is never exhausted. -/
def matchSeq : ℕ → List RItem → List Char → List (List Char)
  | 0, _, _ => []
  | _ + 1, [], s => [s]
  | fuel + 1, .lit ch :: rest, s =>
      match s with
      | [] => []
      | c :: cs => if c.toLower = ch.toLower then matchSeq fuel rest cs else []
  | fuel + 1, .cls p lo hi :: rest, s =>
      let run := countLeading p s
      let maxK := min run (hi.getD run)
      if maxK < lo then []
      else (((List.range (maxK + 1 - lo)).map (fun d => maxK - d)).map
        (fun k => matchSeq fuel rest (s.drop k))).flatten
  | fuel + 1, .grpOpt g :: rest, s => matchSeq fuel (g ++ rest) s ++ matchSeq fuel rest s

mutual
/-- Size of one item (for the fuel bound). -/
def rItemSize : RItem → ℕ
  | .lit _ => 1
  | .cls _ _ _ => 1
  | .grpOpt g => 1 + rItemsSize g
/-- Total size of an item list (for the fuel bound). -/
def rItemsSize : List RItem → ℕ
  | [] => 0
  | i :: rest => rItemSize i + rItemsSize rest
end

/-- `re.search(pattern, s)`: try each start position left to right;
at the first position where the pattern matches, return the matched
text (the consumed characters of the backtracker's first result). -/
def searchPat (p : List RItem) (s : List Char) : Option (List Char) :=
  (List.range (s.length + 1)).findSome? (fun i =>
    ((matchSeq (s.length + rItemsSize p + 1) p (s.drop i)).head?).map
      (fun suffix => (s.drop i).take ((s.drop i).length - suffix.length)))

/-- `\w` (ASCII). -/
def isWordChar (c : Char) : Bool := c.isAlpha || c.isDigit || c == '_'

/-- `[\w.-]`. -/
def isWordDotDash (c : Char) : Bool := isWordChar c || c == '.' || c == '-'

/-- `[A-Za-z0-9]`. -/
def isAlnum (c : Char) : Bool := c.isAlpha || c.isDigit

/-- `[A-Za-z0-9._-]`. -/
def isBearerChar (c : Char) : Bool := isAlnum c || c == '.' || c == '_' || c == '-'

/-- `[^\s]`. -/
def isNotSpace (c : Char) : Bool := !c.isWhitespace

/-- A run of literal characters. -/
def litStr (t : String) : List RItem := t.data.map RItem.lit

/-- The twelve `AUTO_PIN_PATTERNS`, in source order, each with its
category and description. -/
def AUTO_PIN_PATTERNS : List (List RItem × String × String) :=
  [ (litStr "ssh" ++ [.cls Char.isWhitespace 1 none, .cls isWordDotDash 1 none,
      .lit '@', .cls isWordDotDash 1 none], ("credentials", "SSH connection")),
    ([.cls isWordDotDash 1 none, .lit '@', .cls isWordDotDash 1 none, .lit ':',
      .cls Char.isDigit 1 none], ("server", "Server address")),
    ([.cls Char.isDigit 1 (some 3), .lit '.', .cls Char.isDigit 1 (some 3), .lit '.',
      .cls Char.isDigit 1 (some 3), .lit '.', .cls Char.isDigit 1 (some 3),
      .grpOpt [.lit ':', .cls Char.isDigit 1 none]], ("server", "IP address")),
    (litStr "sk-" ++ [.cls isAlnum 20 none], ("credentials", "API key")),
    (litStr "ghp_" ++ [.cls isAlnum 30 none], ("credentials", "GitHub token")),
    (litStr "-----BEGIN" ++ [.cls Char.isWhitespace 1 none,
      .grpOpt (litStr "RSA" ++ [.cls Char.isWhitespace 1 none])]
      ++ litStr "PRIVATE" ++ [.cls Char.isWhitespace 1 none] ++ litStr "KEY",
      ("credentials", "Private key")),
    (litStr "Bearer" ++ [.cls Char.isWhitespace 1 none, .cls isBearerChar 20 none],
      ("credentials", "Bearer token")),
    (litStr "mongodb" ++ [.grpOpt (litStr "+srv")] ++ litStr "://"
      ++ [.cls isNotSpace 1 none], ("database", "MongoDB URI")),
    (litStr "postgres" ++ [.grpOpt (litStr "ql")] ++ litStr "://"
      ++ [.cls isNotSpace 1 none], ("database", "PostgreSQL URI")),
    (litStr "mysql://" ++ [.cls isNotSpace 1 none], ("database", "MySQL URI")),
    (litStr "redis://" ++ [.cls isNotSpace 1 none], ("database", "Redis URI")),
    (litStr "http" ++ [.cls (fun c => c.toLower == 's') 0 (some 1)] ++ litStr "://"
      ++ [.cls isWordDotDash 1 none, .grpOpt [.lit ':', .cls Char.isDigit 1 none]]
      ++ litStr "/api/v" ++ [.cls Char.isDigit 1 none], ("api", "API endpoint")) ]

/-- The dictionary `detect_auto_pin` returns on a match. -/
structure AutoPin where
  category : String
  description : String
  matched : List Char
  sensitive : Bool
deriving DecidableEq

/-- `detect_auto_pin`: first pattern (in order) with a match anywhere in
the text wins; `sensitive` is `category == 'credentials'`. -/
def detect_auto_pin (text : String) : Option AutoPin :=
  AUTO_PIN_PATTERNS.findSome? (fun pat =>
    (searchPat pat.1 text.data).map (fun m =>
      { category := pat.2.1
        description := pat.2.2
        matched := m
        sensitive := pat.2.1 == "credentials" }))

/-! ## Theorems

All definitions above; every theorem of the development follows. -/

/-- The increment loop counts, per bucket, the vocabulary words hashing
into it. -/
theorem foldl_update_count (pyHash : String → Int) (l : List String)
    (init : Fin 128 → ℕ) (i : Fin 128) :
    (l.foldl
      (fun emb w => Function.update emb (hashBucket pyHash w) (emb (hashBucket pyHash w) + 1))
      init) i
      = init i + (l.filter (fun w => hashBucket pyHash w = i)).length := by
  induction l generalizing init with
  | nil => simp
  | cons w t ih =>
      simp only [List.foldl_cons, List.filter_cons]
      rw [ih]
      by_cases hw : hashBucket pyHash w = i
      · simp [hw, Function.update_apply]
        omega
      · simp [hw, Function.update_apply, Ne.symm hw]

theorem simple_embedding_apply (pyHash : String → Int) (text : String) (i : Fin 128) :
    simple_embedding pyHash text i
      = ((pyVocab text).filter (fun w => hashBucket pyHash w = i)).length := by
  simpa using foldl_update_count pyHash (pyVocab text) (fun _ => 0) i

theorem dotN_self_eq_zero_iff (u : Fin 128 → ℕ) :
    dotN u u = 0 ↔ ∀ i, u i = 0 := by
  unfold dotN
  rw [Finset.sum_eq_zero_iff]
  simp [mul_self_eq_zero]

theorem cosine_similarity_nonneg (u v : Fin 128 → ℕ) :
    0 ≤ cosine_similarity u v := by
  unfold cosine_similarity
  split
  · exact le_refl 0
  · positivity

theorem cosSq_eq_sq_cosine_similarity (u v : Fin 128 → ℕ) :
    (cosSq u v : ℝ) = (cosine_similarity u v) ^ 2 := by
  unfold cosSq cosine_similarity
  by_cases hu : dotN u u = 0
  · have : dotN u v = 0 := by
      have hz := (dotN_self_eq_zero_iff u).mp hu
      unfold dotN
      exact Finset.sum_eq_zero (fun i _ => by simp [hz i])
    simp [hu, this]
  · by_cases hv : dotN v v = 0
    · have : dotN u v = 0 := by
        have hz := (dotN_self_eq_zero_iff v).mp hv
        unfold dotN
        exact Finset.sum_eq_zero (fun i _ => by simp [hz i])
      simp [hu, hv, this]
    · have hu' : (0:ℝ) < (dotN u u : ℝ) := by
        exact_mod_cast Nat.pos_of_ne_zero hu
      have hv' : (0:ℝ) < (dotN v v : ℝ) := by
        exact_mod_cast Nat.pos_of_ne_zero hv
      simp only [hu, hv, or_self, if_false]
      rw [div_pow, mul_pow, Real.sq_sqrt hu'.le, Real.sq_sqrt hv'.le]
      push_cast
      ring_nf

/-- Ranking by cosine similarity is the same as ranking by `cosSq`:
cosines of count vectors are non-negative, so squaring is strictly
monotone on them. -/
theorem cosine_lt_iff_cosSq_lt (u v w : Fin 128 → ℕ) :
    cosine_similarity u v < cosine_similarity u w ↔ cosSq u v < cosSq u w := by
  have h1 := cosine_similarity_nonneg u v
  have h2 := cosine_similarity_nonneg u w
  have : (cosSq u v < cosSq u w) ↔ ((cosSq u v : ℝ) < (cosSq u w : ℝ)) := by
    exact_mod_cast Iff.rfl
  rw [this, cosSq_eq_sq_cosine_similarity, cosSq_eq_sq_cosine_similarity]
  constructor
  · intro h
    exact pow_lt_pow_left₀ h h1 two_ne_zero
  · intro h
    by_contra hle
    push_neg at hle
    exact absurd (pow_le_pow_left₀ h2 hle 2) (not_le_of_lt h)

theorem insertDescBy_perm {α : Type} (key : α → ℚ) (x : α) (l : List α) :
    List.Perm (insertDescBy key x l) (x :: l) := by
  induction l with
  | nil => exact List.Perm.refl _
  | cons y ys ih =>
      simp only [insertDescBy]
      by_cases h : key x < key y
      · simp only [if_pos h]
        exact (ih.cons y).trans (List.Perm.swap x y ys)
      · simp only [if_neg h]
        exact List.Perm.refl _

theorem sortDescBy_perm {α : Type} (key : α → ℚ) (l : List α) :
    List.Perm (sortDescBy key l) l := by
  induction l with
  | nil => exact List.Perm.refl _
  | cons x xs ih =>
      simp only [sortDescBy]
      exact (insertDescBy_perm key x (sortDescBy key xs)).trans (ih.cons x)

theorem insertDescBy_pairwise {α : Type} (key : α → ℚ) (x : α) (l : List α)
    (h : l.Pairwise (fun a b => key b ≤ key a)) :
    (insertDescBy key x l).Pairwise (fun a b => key b ≤ key a) := by
  induction l with
  | nil => simp [insertDescBy]
  | cons y ys ih =>
      rw [List.pairwise_cons] at h
      simp only [insertDescBy]
      by_cases hxy : key x < key y
      · simp only [if_pos hxy]
        rw [List.pairwise_cons]
        refine ⟨fun b hb => ?_, ih h.2⟩
        rcases List.mem_cons.mp ((insertDescBy_perm key x ys).mem_iff.mp hb) with rfl | hb'
        · exact le_of_lt hxy
        · exact h.1 b hb'
      · simp only [if_neg hxy]
        rw [List.pairwise_cons]
        refine ⟨fun b hb => ?_, List.pairwise_cons.mpr ⟨h.1, h.2⟩⟩
        rcases List.mem_cons.mp hb with rfl | hb'
        · exact le_of_not_lt hxy
        · exact le_trans (h.1 b hb') (le_of_not_lt hxy)

/-- The sort's output has non-increasing keys. -/
theorem sortDescBy_pairwise {α : Type} (key : α → ℚ) (l : List α) :
    (sortDescBy key l).Pairwise (fun a b => key b ≤ key a) := by
  induction l with
  | nil => simp [sortDescBy]
  | cons x xs ih => exact insertDescBy_pairwise key x _ ih

theorem filter_insertDescBy {α : Type} (key : α → ℚ) (x : α) (l : List α) (c : ℚ) :
    (insertDescBy key x l).filter (fun a => key a = c)
      = if key x = c then x :: l.filter (fun a => key a = c)
        else l.filter (fun a => key a = c) := by
  induction l with
  | nil =>
      simp only [insertDescBy, List.filter]
      by_cases h : key x = c <;> simp [h]
  | cons y ys ih =>
      simp only [insertDescBy]
      by_cases hxy : key x < key y
      · simp only [if_pos hxy, List.filter_cons]
        by_cases hyc : key y = c
        · have hxc : ¬ key x = c := by
            intro hh
            rw [hh, ← hyc] at hxy
            exact lt_irrefl _ hxy
          simp [hyc, hxc, ih]
        · simp [hyc, ih]
      · simp only [if_neg hxy, List.filter_cons]
        by_cases hxc : key x = c <;> simp [hxc]

/-- Stability: at every key value, the sort preserves the input's relative
order (the filter at that key value is unchanged). -/
theorem sortDescBy_stable {α : Type} (key : α → ℚ) (l : List α) (c : ℚ) :
    (sortDescBy key l).filter (fun a => key a = c)
      = l.filter (fun a => key a = c) := by
  induction l with
  | nil => rfl
  | cons x xs ih =>
      simp only [sortDescBy, filter_insertDescBy, List.filter_cons, ih]
      by_cases h : key x = c <;> simp [h]

/-- An element whose key strictly dominates every other element's key ends
up first. -/
theorem sortDescBy_head_of_max {α : Type} (key : α → ℚ) (x : α) (l : List α)
    (hmem : x ∈ l) (hmax : ∀ y ∈ l, y ≠ x → key y < key x) :
    (sortDescBy key l).head? = some x := by
  induction l with
  | nil => cases hmem
  | cons a t ih =>
      simp only [sortDescBy]
      rcases List.mem_cons.mp hmem with rfl | hxt
      · cases hsort : sortDescBy key t with
        | nil => simp [insertDescBy]
        | cons z zs =>
            have hz : z ∈ t := (sortDescBy_perm key t).mem_iff.mp
              (by rw [hsort]; exact List.mem_cons_self z zs)
            have hzx : ¬ key x < key z := by
              rcases eq_or_ne z x with rfl | hne
              · exact lt_irrefl _
              · exact not_lt_of_gt (hmax z (List.mem_cons_of_mem _ hz) hne)
            simp [insertDescBy, hzx]
      · have ih' := ih hxt (fun y hy hne => hmax y (List.mem_cons_of_mem _ hy) hne)
        cases hsort : sortDescBy key t with
        | nil => rw [hsort] at ih'; cases ih'
        | cons z zs =>
            rw [hsort] at ih'
            have hzx : z = x := by simpa using ih'
            subst hzx
            by_cases hax : a = z
            · have : ¬ key a < key z := by rw [hax]; exact lt_irrefl _
              simp [insertDescBy, this, hax]
            · have : key a < key z := hmax a (List.mem_cons_self a t) hax
              simp [insertDescBy, this]

/-- Sorting `(key r, r)` pairs by first component is sorting the records
by `key` (what `sort(key=lambda x: x[0])` does to the scored pairs). -/
theorem insertDescBy_fst_map {α : Type} (f : α → ℚ) (x : α) (l : List α) :
    insertDescBy Prod.fst ((f x, x)) (l.map (fun r => (f r, r)))
      = (insertDescBy f x l).map (fun r => (f r, r)) := by
  induction l with
  | nil => rfl
  | cons y ys ih =>
      simp only [List.map_cons, insertDescBy]
      by_cases h : f x < f y
      · simp [h, ih]
      · simp [h]

theorem sortDescBy_fst_map {α : Type} (f : α → ℚ) (l : List α) :
    sortDescBy Prod.fst (l.map (fun r => (f r, r)))
      = (sortDescBy f l).map (fun r => (f r, r)) := by
  induction l with
  | nil => rfl
  | cons x xs ih => simp only [List.map_cons, sortDescBy, ih, insertDescBy_fst_map]

theorem lagrange_identity (u v : Fin 128 → ℕ) :
    (∑ i : Fin 128, ∑ j : Fin 128, ((u i : ℚ) * (v j : ℚ) - (u j : ℚ) * (v i : ℚ)) ^ 2)
      = 2 * ((dotN u u : ℚ) * (dotN v v : ℚ)) - 2 * ((dotN u v : ℚ)) ^ 2 := by
  have hd : ∀ a b : Fin 128 → ℕ,
      ((dotN a b : ℚ)) = ∑ i : Fin 128, (a i : ℚ) * (b i : ℚ) := by
    intro a b
    unfold dotN
    push_cast
    rfl
  rw [hd, hd, hd]
  have hsym : (∑ i : Fin 128, ∑ j : Fin 128, (u j : ℚ) * (u j : ℚ) * ((v i : ℚ) * (v i : ℚ)))
      = ∑ i : Fin 128, ∑ j : Fin 128, (u i : ℚ) * (u i : ℚ) * ((v j : ℚ) * (v j : ℚ)) := by
    rw [Finset.sum_comm]
  have hexp : (∑ i : Fin 128, ∑ j : Fin 128,
        ((u i : ℚ) * (v j : ℚ) - (u j : ℚ) * (v i : ℚ)) ^ 2)
      = (∑ i : Fin 128, ∑ j : Fin 128, (u i : ℚ) * (u i : ℚ) * ((v j : ℚ) * (v j : ℚ)))
        + ((∑ i : Fin 128, ∑ j : Fin 128, (u j : ℚ) * (u j : ℚ) * ((v i : ℚ) * (v i : ℚ)))
          - 2 * (∑ i : Fin 128, ∑ j : Fin 128,
              (u i : ℚ) * (v i : ℚ) * ((u j : ℚ) * (v j : ℚ)))) := by
    simp only [Finset.mul_sum, ← Finset.sum_sub_distrib, ← Finset.sum_add_distrib]
    refine Finset.sum_congr rfl (fun i _ => Finset.sum_congr rfl (fun j _ => by ring))
  rw [hexp, hsym, sq (∑ i : Fin 128, (u i : ℚ) * (v i : ℚ)), Finset.sum_mul_sum,
    Finset.sum_mul_sum]
  ring

/-- Cauchy–Schwarz for the dot products, over ℚ. -/
theorem dotN_sq_le (u v : Fin 128 → ℕ) :
    ((dotN u v : ℚ)) ^ 2 ≤ (dotN u u : ℚ) * (dotN v v : ℚ) := by
  have h := lagrange_identity u v
  have hnn : (0:ℚ) ≤ ∑ i : Fin 128, ∑ j : Fin 128,
      ((u i : ℚ) * (v j : ℚ) - (u j : ℚ) * (v i : ℚ)) ^ 2 :=
    Finset.sum_nonneg (fun i _ => Finset.sum_nonneg (fun j _ => sq_nonneg _))
  nlinarith [h, hnn]

/-- Similarity scores never exceed 1. -/
theorem cosSq_le_one (u v : Fin 128 → ℕ) : cosSq u v ≤ 1 := by
  unfold cosSq
  rcases eq_or_ne ((dotN u u : ℚ) * (dotN v v : ℚ)) 0 with h0 | h0
  · rw [h0, div_zero]
    exact zero_le_one
  · have h1 : (0:ℚ) ≤ (dotN u u : ℚ) := Nat.cast_nonneg _
    have h2 : (0:ℚ) ≤ (dotN v v : ℚ) := Nat.cast_nonneg _
    have hpos : (0:ℚ) < (dotN u u : ℚ) * (dotN v v : ℚ) :=
      lt_of_le_of_ne (mul_nonneg h1 h2) (Ne.symm h0)
    rw [div_le_one hpos]
    exact dotN_sq_le u v

/-- A nonzero vector has similarity exactly 1 with itself (the code's
`search(R's own text)` scores R at 1.0). -/
theorem cosSq_self (q : Fin 128 → ℕ) (h : dotN q q ≠ 0) : cosSq q q = 1 := by
  unfold cosSq
  have h' : ((dotN q q : ℚ)) ≠ 0 := Nat.cast_ne_zero.mpr h
  rw [sq]
  exact div_self (mul_ne_zero h' h')

/-- Strict Cauchy–Schwarz: a record whose count vector is not collinear
with the query's (and not the zero vector) scores strictly below 1. -/
theorem cosSq_lt_one (q v : Fin 128 → ℕ)
    (hv : CollinearNN q v → dotN v v = 0) : cosSq q v < 1 := by
  rcases eq_or_ne (dotN v v) 0 with hz | hz
  · have hv0 := (dotN_self_eq_zero_iff v).mp hz
    have hd : dotN q v = 0 := by
      unfold dotN
      exact Finset.sum_eq_zero (fun i _ => by simp [hv0 i])
    unfold cosSq
    rw [hd]
    norm_num
  · have hcol : ¬ CollinearNN q v := fun hc => hz (hv hc)
    unfold CollinearNN at hcol
    push_neg at hcol
    obtain ⟨i, j, hij⟩ := hcol
    have hterm : (0:ℚ) < ((q i : ℚ) * (v j : ℚ) - (q j : ℚ) * (v i : ℚ)) ^ 2 := by
      have : ((q i : ℚ) * (v j : ℚ) - (q j : ℚ) * (v i : ℚ)) ≠ 0 := by
        intro h0
        apply hij
        have : ((q i * v j : ℕ) : ℚ) = ((q j * v i : ℕ) : ℚ) := by
          push_cast
          linarith
        exact_mod_cast this
      positivity
    have hsum : (0:ℚ) < ∑ i' : Fin 128, ∑ j' : Fin 128,
        ((q i' : ℚ) * (v j' : ℚ) - (q j' : ℚ) * (v i' : ℚ)) ^ 2 := by
      apply Finset.sum_pos'
      · intro i' _
        exact Finset.sum_nonneg (fun j' _ => sq_nonneg _)
      · refine ⟨i, Finset.mem_univ i, ?_⟩
        apply Finset.sum_pos'
        · intro j' _
          exact sq_nonneg _
        · exact ⟨j, Finset.mem_univ j, hterm⟩
    have hstrict : ((dotN q v : ℚ)) ^ 2 < (dotN q q : ℚ) * (dotN v v : ℚ) := by
      have h := lagrange_identity q v
      nlinarith [hsum, h]
    unfold cosSq
    have hpos : (0:ℚ) < (dotN q q : ℚ) * (dotN v v : ℚ) :=
      lt_of_le_of_lt (sq_nonneg _) hstrict
    rw [div_lt_one hpos]
    exact hstrict

/-- The scored-pair sort projects to a sort of the records themselves. -/
theorem search_scored_eq {α : Type} [DecidableEq α] (f : α → ℚ) (l : List α) (k : ℕ) :
    ((sortDescBy Prod.fst (l.map (fun r => (f r, r)))).map Prod.snd).take k
      = (sortDescBy f l).take k := by
  rw [sortDescBy_fst_map, List.map_map]
  have : (Prod.snd ∘ fun r => (f r, r)) = id := rfl
  rw [this, List.map_id]

theorem search_solutions_eq (pyHash : String → Int) (st : Index) (query : String)
    (top_k : ℕ) :
    search_solutions pyHash st query top_k
      = (sortDescBy (fun r => cosSq (simple_embedding pyHash query) r.embedding)
          (st.solutions.filter (fun s => !s.archived))).take top_k := by
  unfold search_solutions
  exact search_scored_eq _ _ _

theorem search_errors_eq (pyHash : String → Int) (st : Index) (query : String)
    (top_k : ℕ) :
    search_errors pyHash st query top_k
      = (sortDescBy (fun r => cosSq (simple_embedding pyHash query) r.embedding)
          st.errors).take top_k := by
  unfold search_errors
  exact search_scored_eq _ _ _

/-- A nonempty token list makes the self dot product positive. -/
theorem dotN_simple_embedding_ne_zero (pyHash : String → Int) (text : String)
    (h : pyVocab text ≠ []) :
    dotN (simple_embedding pyHash text) (simple_embedding pyHash text) ≠ 0 := by
  intro h0
  have hall := (dotN_self_eq_zero_iff _).mp h0
  obtain ⟨w, t, hwt⟩ := List.exists_cons_of_ne_nil h
  have hmem : w ∈ (pyVocab text).filter
      (fun w' => hashBucket pyHash w' = hashBucket pyHash w) := by
    rw [List.mem_filter]
    exact ⟨by rw [hwt]; exact List.mem_cons_self w t, by simp⟩
  have hlen : 0 < ((pyVocab text).filter
      (fun w' => hashBucket pyHash w' = hashBucket pyHash w)).length :=
    List.length_pos.mpr (List.ne_nil_of_mem hmem)
  have := hall (hashBucket pyHash w)
  rw [simple_embedding_apply] at this
  omega

theorem head_take {α : Type} (l : List α) (k : ℕ) (hk : 1 ≤ k) :
    (l.take k).head? = l.head? := by
  cases l with
  | nil => simp
  | cons a t =>
      cases k with
      | zero => omega
      | succ k' => simp

/-- **C3.** The spec requires the embedding hash to be deterministic and
stable across process restarts.  The source uses Python's builtin `hash`,
which is salted per process (`PYTHONHASHSEED`): two runs with different
seeds bucket the same token differently, so the embeddings of the same
text are not bit-identical across restarts.  Exhibited here: two hash
functions (two seeds) under which `_simple_embedding` produces different
vectors for the same text. -/
theorem simple_embedding_hash_dependent :
    ∃ (h1 h2 : String → Int) (text : String),
      simple_embedding h1 text ≠ simple_embedding h2 text := by
  refine ⟨fun _ => 0, fun _ => 1, "a", ?_⟩
  decide

/-- **C2 (amended).** For both cited kinds the search embeds the query,
scores candidate records by cosine similarity, sorts descending with
equal-similarity records kept in their original insertion order, and
truncates to the first `top_k` — but only `search_solutions` restricts the
candidates to non-archived records; `search_errors` scores *all* error
records, archived ones included. -/
theorem search_ranking_spec (pyHash : String → Int) (st : Index) (query : String)
    (top_k : ℕ) :
    (∃ fullS : List MemRec,
        search_solutions pyHash st query top_k = fullS.take top_k ∧
        List.Perm fullS (st.solutions.filter (fun s => !s.archived)) ∧
        fullS.Pairwise (fun a b =>
          cosSq (simple_embedding pyHash query) b.embedding
            ≤ cosSq (simple_embedding pyHash query) a.embedding) ∧
        (∀ c : ℚ, fullS.filter
            (fun r => cosSq (simple_embedding pyHash query) r.embedding = c)
          = (st.solutions.filter (fun s => !s.archived)).filter
              (fun r => cosSq (simple_embedding pyHash query) r.embedding = c)))
    ∧
    (∃ fullE : List MemRec,
        search_errors pyHash st query top_k = fullE.take top_k ∧
        List.Perm fullE st.errors ∧
        fullE.Pairwise (fun a b =>
          cosSq (simple_embedding pyHash query) b.embedding
            ≤ cosSq (simple_embedding pyHash query) a.embedding) ∧
        (∀ c : ℚ, fullE.filter
            (fun r => cosSq (simple_embedding pyHash query) r.embedding = c)
          = st.errors.filter
              (fun r => cosSq (simple_embedding pyHash query) r.embedding = c))) := by
  constructor
  · exact ⟨_, search_solutions_eq pyHash st query top_k,
      sortDescBy_perm _ _, sortDescBy_pairwise _ _, fun c => sortDescBy_stable _ _ c⟩
  · exact ⟨_, search_errors_eq pyHash st query top_k,
      sortDescBy_perm _ _, sortDescBy_pairwise _ _, fun c => sortDescBy_stable _ _ c⟩

/-- **C2 (counterexample).** The claim as stated says similarity is
computed only against *non-archived* records of the kind; but
`search_errors` has no archived check: a store whose single error record
is archived still returns it. -/
theorem search_errors_returns_archived :
    archivedErr.archived = true ∧
    search_errors hashW stErr "boom" 3 = [archivedErr] := by
  constructor
  · rfl
  · rw [search_errors_eq]
    rfl

/-- **C7 (amended).** Searching a kind with a record's own salient
concatenated text ranks that record first — provided every other
non-archived record of the kind has a *different normalised embedding*
(count vector not collinear with the query's).  Distinct raw text is not
enough: texts with the same token set (or whose token sets collide into
proportional hash-bucket vectors) embed identically and can then precede
R in the stable sort. -/
theorem search_solutions_self_similarity (pyHash : String → Int) (st : Index)
    (R : MemRec) (k : ℕ)
    (hk : 1 ≤ k)
    (hmem : R ∈ st.solutions)
    (harch : R.archived = false)
    (hemb : R.embedding = simple_embedding pyHash (solutionSalientText R))
    (htok : pyVocab (solutionSalientText R) ≠ [])
    (hothers : ∀ e ∈ st.solutions, e ≠ R → e.archived = false →
      CollinearNN (simple_embedding pyHash (solutionSalientText R)) e.embedding →
      dotN e.embedding e.embedding = 0) :
    (search_solutions pyHash st (solutionSalientText R) k).head? = some R := by
  rw [search_solutions_eq, head_take _ _ hk]
  set q := simple_embedding pyHash (solutionSalientText R) with hq
  have hqq : dotN q q ≠ 0 := dotN_simple_embedding_ne_zero pyHash _ htok
  apply sortDescBy_head_of_max
  · rw [List.mem_filter]
    exact ⟨hmem, by rw [harch]; rfl⟩
  · intro y hy hne
    rw [List.mem_filter] at hy
    have hyarch : y.archived = false := by
      rcases hy with ⟨_, h2⟩
      simpa using h2
    have h1 : cosSq q y.embedding < 1 :=
      cosSq_lt_one q y.embedding (hothers y hy.1 hne hyarch)
    have h2 : cosSq q R.embedding = 1 := by
      rw [hemb]
      exact cosSq_self q hqq
    rw [h2]
    exact h1

/-- Witness for C7 at a concrete store: `recW`'s own salient text ranks
`recW` first even though another record precedes it in insertion order. -/
theorem search_solutions_self_similarity_witness :
    (search_solutions hashW stW (solutionSalientText recW) 3).head? = some recW := by
  have hsal : solutionSalientText recW = "alpha beta" := by decide
  refine search_solutions_self_similarity hashW stW recW 3 (by omega) ?_ rfl ?_ ?_ ?_
  · exact List.mem_cons_of_mem _ (List.mem_cons_self _ _)
  · rw [hsal]
    rfl
  · rw [hsal]
    decide
  · intro e he hne harch hcol
    rcases List.mem_cons.mp he with rfl | he2
    · exfalso
      rw [hsal] at hcol
      exact absurd (hcol ⟨5, by omega⟩ ⟨2, by omega⟩) (by decide)
    · rcases List.mem_cons.mp he2 with rfl | he3
      · exact absurd rfl hne
      · cases he3

/-- **C7 (counterexample).** As literally stated the claim only assumes
the other records have distinct *text*.  Two solution records with
distinct texts but the same token set (`"dup dup"` vs `"dup"`-based
fields) share an embedding; if the other record was inserted earlier, the
stable sort ranks it first, so R is not the top result. -/
theorem search_solutions_distinct_text_insufficient :
    dupA ≠ dupB ∧
    solutionSalientText dupA ≠ solutionSalientText dupB ∧
    dupB.archived = false ∧
    dupB.embedding = simple_embedding hashW (solutionSalientText dupB) ∧
    (search_solutions hashW stDup (solutionSalientText dupB) 3).head? = some dupA := by
  have hsal : solutionSalientText dupB = "dup " := by decide
  have hB : dupB.embedding = simple_embedding hashW (solutionSalientText dupB) := by
    rw [hsal]
    rfl
  refine ⟨?_, by decide, rfl, hB, ?_⟩
  · intro h
    have : dupA.id = dupB.id := by rw [h]
    simp [dupA, dupB, blankRec] at this
  · rw [search_solutions_eq]
    have hemb : dupA.embedding = dupB.embedding := by
      funext i
      show simple_embedding hashW "dup dup" i = simple_embedding hashW "dup " i
      rw [simple_embedding_apply, simple_embedding_apply,
        show pyVocab "dup dup" = pyVocab "dup " from by decide]
    have hfilter : stDup.solutions.filter (fun s => !s.archived) = [dupA, dupB] := rfl
    rw [hfilter]
    show ((sortDescBy
      (fun r => cosSq (simple_embedding hashW (solutionSalientText dupB)) r.embedding)
      [dupA, dupB]).take 3).head? = some dupA
    have hsort : sortDescBy
        (fun r => cosSq (simple_embedding hashW (solutionSalientText dupB)) r.embedding)
        [dupA, dupB] = [dupA, dupB] := by
      show insertDescBy _ dupA (insertDescBy _ dupB (sortDescBy _ [])) = _
      have h2 : insertDescBy
          (fun r => cosSq (simple_embedding hashW (solutionSalientText dupB)) r.embedding)
          dupB (sortDescBy
            (fun r => cosSq (simple_embedding hashW (solutionSalientText dupB)) r.embedding)
            []) = [dupB] := rfl
      rw [h2]
      show (if cosSq (simple_embedding hashW (solutionSalientText dupB)) dupA.embedding
          < cosSq (simple_embedding hashW (solutionSalientText dupB)) dupB.embedding
        then _ else _) = _
      rw [hemb, if_neg (lt_irrefl _)]
    rw [hsort]
    rfl

theorem idMatches_empty (r : MemRec) : idMatches "" r = true := by
  unfold idMatches pyStartswith
  have h : ("" : String).data = [] := rfl
  rw [h]
  simp [listStarts]

theorem updateFirstBy_cons_empty (u : MemRec → MemRec) (r : MemRec) (rs : List MemRec) :
    updateFirstBy (idMatches "") u (r :: rs) = some (u r :: rs) := by
  simp [updateFirstBy, idMatches_empty]

theorem decayEntry_of_stale (now decay_days : Int) (f : ℚ) (g : GravityEntry)
    (t : Int) (hlast : g.last_accessed = some t) (h : decay_days ≤ now - t) :
    decayEntry now decay_days f g = { g with mass := max (1/10) (g.mass * f) } := by
  obtain ⟨m, refs, tks, la⟩ := g
  cases hlast
  exact if_pos h

theorem decayEntry_of_fresh (now decay_days : Int) (f : ℚ) (g : GravityEntry)
    (t : Int) (hlast : g.last_accessed = some t) (h : ¬ decay_days ≤ now - t) :
    decayEntry now decay_days f g = g := by
  obtain ⟨m, refs, tks, la⟩ := g
  cases hlast
  exact if_neg h

theorem decayEntry_of_none (now decay_days : Int) (f : ℚ) (g : GravityEntry)
    (hlast : g.last_accessed = none) : decayEntry now decay_days f g = g := by
  obtain ⟨m, refs, tks, la⟩ := g
  cases hlast
  rfl

/-- A decay step never outputs a mass below the 0.1 floor that was not
already below it. -/
theorem decayEntry_mass_floor (now decay_days : Int) (f : ℚ) (g : GravityEntry)
    (h : (1:ℚ)/10 ≤ g.mass) : (1:ℚ)/10 ≤ (decayEntry now decay_days f g).mass := by
  cases hla : g.last_accessed with
  | none => rw [decayEntry_of_none now decay_days f g hla]; exact h
  | some t =>
      by_cases hc : decay_days ≤ now - t
      · rw [decayEntry_of_stale now decay_days f g t hla hc]
        exact le_max_left _ _
      · rw [decayEntry_of_fresh now decay_days f g t hla hc]
        exact h

/-- **C1 (amended).** For every id argument, `archive_memory` and
`refine_memory` never mutate any record in the pinned list — `'pinned'`
is not among their scanned kinds.  `apply_staleness_decay`, however,
consults only the gravity map: it multiplies the mass of *every* stale
tracked id, with no pinned-exclusion, so the gravity mass held for a
pinned record's id is reduced like any other (see the counterexample). -/
theorem pinned_exempt_archive_refine_not_decay :
    (∀ now st memory_id,
        ((archive_memory now st memory_id).2).pinned = st.pinned)
    ∧ (∀ pyHash now st memory_id new_content,
        ((refine_memory pyHash now st memory_id new_content).2).pinned = st.pinned)
    ∧ (∀ (nowD decay_days : Int) (f : ℚ) (st : Index) (mid : String)
          (g : GravityEntry) (t : Int),
        (mid, g) ∈ st.memory_gravity → g.last_accessed = some t →
        decay_days ≤ nowD - t →
        (mid, { g with mass := max (1/10) (g.mass * f) })
          ∈ (apply_staleness_decay nowD decay_days f st).memory_gravity) := by
  refine ⟨?_, ?_, ?_⟩
  · intro now st memory_id
    unfold archive_memory
    repeat' split
    all_goals rfl
  · intro pyHash now st memory_id new_content
    unfold refine_memory
    repeat' split
    all_goals rfl
  · intro nowD decay_days f st mid g t hmem hlast hstale
    unfold apply_staleness_decay
    refine List.mem_map.mpr ⟨(mid, g), hmem, ?_⟩
    show (mid, decayEntry nowD decay_days f g) = _
    rw [decayEntry_of_stale nowD decay_days f g t hlast hstale]

/-- Witness for C1's amended statement at a concrete store. -/
theorem pinned_exempt_archive_refine_not_decay_witness :
    ((archive_memory "t" stPin "p").2).pinned = stPin.pinned ∧
    ("p1", { gW with mass := max (1/10) (gW.mass * (9/10)) })
      ∈ (apply_staleness_decay 10 7 (9/10) stPin).memory_gravity := by
  constructor
  · exact pinned_exempt_archive_refine_not_decay.1 "t" stPin "p"
  · exact pinned_exempt_archive_refine_not_decay.2.2 10 7 (9/10) stPin "p1" gW 0
      (List.mem_singleton.mpr rfl) rfl (by norm_num)

/-- **C1 (counterexample).** The claim says pinned records are invisible
to decay; but `apply_staleness_decay` decays the gravity entry keyed by
the pinned record's id `"p1"` from mass 1 to 0.9. -/
theorem decay_reduces_pinned_gravity_mass :
    stPin.pinned = [pinW] ∧
    stPin.memory_gravity = [(pinW.id, gW)] ∧
    (apply_staleness_decay 10 7 (9/10) stPin).memory_gravity
      = [(pinW.id, { gW with mass := 9/10 })] ∧
    ({ gW with mass := (9/10 : ℚ) } : GravityEntry).mass < gW.mass := by
  refine ⟨rfl, rfl, ?_, by norm_num [gW]⟩
  show [("p1", decayEntry 10 7 (9/10) gW)] = _
  have h : decayEntry 10 7 (9/10) gW = { gW with mass := 9/10 } := by
    rw [decayEntry_of_stale 10 7 (9/10) gW 0 rfl (by norm_num)]
    have hm : max ((1:ℚ)/10) (gW.mass * (9/10)) = 9/10 := by
      show max ((1:ℚ)/10) (1 * (9/10)) = 9/10
      rw [one_mul]
      exact max_eq_right (by norm_num)
    rw [hm]
  rw [h]
  rfl

/-- **C6.** Staleness decay multiplies the mass of every tracked memory
whose last-accessed age exceeds the threshold by the factor, floored at
0.1; it does not refresh `last_accessed`, so repeated calls in the same
stale window compound (1 → 0.9 → 0.81 in scenario D); and no sequence of
decay calls drives a mass that is at or above the floor below 0.1. -/
theorem apply_staleness_decay_spec :
    (∀ (nowD decay_days : Int) (f : ℚ) (st : Index) (mid : String)
        (g : GravityEntry) (t : Int),
        (mid, g) ∈ st.memory_gravity → g.last_accessed = some t →
        decay_days < nowD - t →
        (mid, { g with mass := max (1/10) (g.mass * f) })
          ∈ (apply_staleness_decay nowD decay_days f st).memory_gravity)
    ∧ ((apply_staleness_decay 10 7 (9/10) stScen).memory_gravity
          = [("m", { gW with mass := 9/10 })]
        ∧ (apply_staleness_decay 10 7 (9/10)
              (apply_staleness_decay 10 7 (9/10) stScen)).memory_gravity
          = [("m", { gW with mass := 81/100 })])
    ∧ (∀ (calls : List (Int × Int × ℚ)) (st : Index),
        (∀ p ∈ st.memory_gravity, (1:ℚ)/10 ≤ p.2.mass) →
        ∀ p ∈ (calls.foldl
            (fun acc c => apply_staleness_decay c.1 c.2.1 c.2.2 acc)
            st).memory_gravity,
          (1:ℚ)/10 ≤ p.2.mass) := by
  refine ⟨?_, ⟨?_, ?_⟩, ?_⟩
  · intro nowD decay_days f st mid g t hmem hlast hstale
    unfold apply_staleness_decay
    refine List.mem_map.mpr ⟨(mid, g), hmem, ?_⟩
    show (mid, decayEntry nowD decay_days f g) = _
    rw [decayEntry_of_stale nowD decay_days f g t hlast (le_of_lt hstale)]
  · show [("m", decayEntry 10 7 (9/10) gW)] = _
    have h : decayEntry 10 7 (9/10) gW = { gW with mass := 9/10 } := by
      rw [decayEntry_of_stale 10 7 (9/10) gW 0 rfl (by norm_num)]
      have hm : max ((1:ℚ)/10) (gW.mass * (9/10)) = 9/10 := by
        show max ((1:ℚ)/10) (1 * (9/10)) = 9/10
        rw [one_mul]
        exact max_eq_right (by norm_num)
      rw [hm]
    rw [h]
  · show [("m", decayEntry 10 7 (9/10) (decayEntry 10 7 (9/10) gW))] = _
    have h1 : decayEntry 10 7 (9/10) gW = { gW with mass := 9/10 } := by
      rw [decayEntry_of_stale 10 7 (9/10) gW 0 rfl (by norm_num)]
      have hm : max ((1:ℚ)/10) (gW.mass * (9/10)) = 9/10 := by
        show max ((1:ℚ)/10) (1 * (9/10)) = 9/10
        rw [one_mul]
        exact max_eq_right (by norm_num)
      rw [hm]
    rw [h1]
    have h2 : decayEntry 10 7 (9/10) { gW with mass := (9/10 : ℚ) }
        = { gW with mass := 81/100 } := by
      rw [decayEntry_of_stale 10 7 (9/10) ({ gW with mass := (9/10 : ℚ) }) 0 rfl
        (by norm_num)]
      have hm : max ((1:ℚ)/10) ((9/10 : ℚ) * (9/10)) = 81/100 := by
        rw [show ((9:ℚ)/10) * (9/10) = 81/100 by norm_num]
        exact max_eq_right (by norm_num)
      show ({ gW with mass := max ((1:ℚ)/10) ((9/10 : ℚ) * (9/10)) } : GravityEntry) = _
      rw [hm]
    rw [h2]
  · intro calls
    induction calls with
    | nil => intro st hinv p hp; exact hinv p hp
    | cons c cs ih =>
        intro st hinv
        apply ih
        intro p hp
        unfold apply_staleness_decay at hp
        obtain ⟨q, hq, hpq⟩ := List.mem_map.mp hp
        rw [← hpq]
        exact decayEntry_mass_floor _ _ _ _ (hinv q hq)

/-- Witness for C6 at the concrete scenario-D store. -/
theorem apply_staleness_decay_spec_witness :
    ("m", { gW with mass := max (1/10) (gW.mass * (9/10)) })
      ∈ (apply_staleness_decay 10 7 (9/10) stScen).memory_gravity
    ∧ (∀ p ∈ ([((10:Int), ((7:Int), (9/10:ℚ)))].foldl
          (fun acc c => apply_staleness_decay c.1 c.2.1 c.2.2 acc)
          stScen).memory_gravity,
        (1:ℚ)/10 ≤ p.2.mass) := by
  constructor
  · exact apply_staleness_decay_spec.1 10 7 (9/10) stScen "m" gW 0
      (List.mem_singleton.mpr rfl) rfl (by norm_num)
  · refine apply_staleness_decay_spec.2.2 [((10:Int), ((7:Int), (9/10:ℚ)))] stScen ?_
    intro p hp
    rcases List.mem_singleton.mp hp with rfl
    show (1:ℚ)/10 ≤ gW.mass
    norm_num [gW]

/-- **C10 (amended).** Archive (like unarchive and refine) matches records
by `startswith` on the id and mutates the first match in the fixed kind
scan order.  `archive('')` matches the very first record scanned, so it
returns True and archives that record for every store with a record in
the list kinds scanned before the dependencies dict — but *not* for every
store with a non-pinned record: sessions and environment notes are never
scanned (the scan uses the nonexistent key `'env_configs'`), so such
stores return False, and a non-empty dependencies dict reached without an
earlier match raises `AttributeError`. -/
theorem archive_memory_empty_id_spec :
    (∀ now st,
      (st.solutions ++ st.errors ++ st.antipatterns ++ st.preferences
          ++ st.git_conventions) ≠ [] →
      archive_memory now st "" = (.ok true, archiveFirstSpec now st))
    ∧ (∀ now st,
      st.solutions = [] → st.errors = [] → st.antipatterns = [] →
      st.preferences = [] → st.git_conventions = [] → st.dependencies = [] →
      (st.testing ++ st.api_notes) ≠ [] →
      archive_memory now st "" = (.ok true, archiveFirstSpec now st))
    ∧ (∀ now st,
      st.solutions = [] → st.errors = [] → st.antipatterns = [] →
      st.preferences = [] → st.git_conventions = [] → st.dependencies ≠ [] →
      archive_memory now st "" = (.error "AttributeError", st))
    ∧ (∀ now st,
      st.solutions = [] → st.errors = [] → st.antipatterns = [] →
      st.preferences = [] → st.git_conventions = [] → st.dependencies = [] →
      st.testing = [] → st.api_notes = [] →
      archive_memory now st "" = (.ok false, st)) := by
  refine ⟨?_, ?_, ?_, ?_⟩
  · intro now st hne
    unfold archive_memory archiveFirstSpec
    cases hsol : st.solutions with
    | cons r rs => simp [updateFirstBy_cons_empty, idMatches_empty]
    | nil =>
      cases herr : st.errors with
      | cons r rs => simp [updateFirstBy, updateFirstBy_cons_empty, idMatches_empty]
      | nil =>
        cases hanti : st.antipatterns with
        | cons r rs => simp [updateFirstBy, updateFirstBy_cons_empty, idMatches_empty]
        | nil =>
          cases hpref : st.preferences with
          | cons r rs => simp [updateFirstBy, updateFirstBy_cons_empty, idMatches_empty]
          | nil =>
            cases hgit : st.git_conventions with
            | cons r rs => simp [updateFirstBy, updateFirstBy_cons_empty, idMatches_empty]
            | nil => simp [hsol, herr, hanti, hpref, hgit] at hne
  · intro now st hsol herr hanti hpref hgit hdep hne
    unfold archive_memory archiveFirstSpec
    rw [hsol, herr, hanti, hpref, hgit, hdep]
    cases htest : st.testing with
    | cons r rs => simp [updateFirstBy, updateFirstBy_cons_empty, idMatches_empty]
    | nil =>
      cases hapi : st.api_notes with
      | cons r rs => simp [updateFirstBy, updateFirstBy_cons_empty, idMatches_empty]
      | nil => simp [htest, hapi] at hne
  · intro now st hsol herr hanti hpref hgit hdep
    unfold archive_memory
    rw [hsol, herr, hanti, hpref, hgit]
    simp [updateFirstBy, hdep]
  · intro now st hsol herr hanti hpref hgit hdep htest hapi
    unfold archive_memory
    rw [hsol, herr, hanti, hpref, hgit, hdep, htest, hapi]
    simp [updateFirstBy]

/-- Witness for C10's amended statement at a concrete store. -/
theorem archive_memory_empty_id_spec_witness :
    archive_memory "t" stW "" = (.ok true, archiveFirstSpec "t" stW) :=
  archive_memory_empty_id_spec.1 "t" stW (by simp [stW, emptyIndex])

/-- **C10 (counterexample).** A store whose only (non-pinned) record is an
environment note: `archive('')` returns False, so the claim's "for every
store containing at least one non-pinned record ... returns True" fails. -/
theorem archive_empty_id_false_on_environment_store :
    stEnv.environment = ["local"] ∧ stEnv.pinned = [] ∧
    archive_memory "t" stEnv "" = (.ok false, stEnv) :=
  ⟨rfl, rfl, rfl⟩

theorem rotateBackups_indexFile {C : Type} (fs : PFS C) :
    (rotateBackups fs).indexFile = fs.indexFile := by
  obtain ⟨idx, bk, bk2, corr, tmp⟩ := fs
  cases idx with
  | none => rfl
  | some c =>
      cases bk with
      | none => rfl
      | some b => rfl

/-- **C4.** If the post-write re-parse validation fails (or the write
itself fails) before the atomic rename, `_save_index` deletes the temp
file, propagates a fatal error, and leaves the on-disk index file
unchanged — hence still parsing if it parsed before. -/
theorem save_index_failure_safe {C : Type} (parse : C → Option PIndex)
    (fs : PFS C) (content : C) (writeOk validateOk : Bool)
    (hfail : writeOk = false ∨ validateOk = false) :
    ((save_index fs content writeOk validateOk).1).isSome = true
    ∧ (save_index fs content writeOk validateOk).2.indexFile = fs.indexFile
    ∧ (save_index fs content writeOk validateOk).2.temp = none
    ∧ (∀ c, fs.indexFile = some c → (parse c).isSome = true →
        ∃ c', (save_index fs content writeOk validateOk).2.indexFile = some c'
          ∧ (parse c').isSome = true) := by
  have hidx : (save_index fs content writeOk validateOk).2.indexFile = fs.indexFile := by
    rcases hfail with h | h
    · subst h
      show (rotateBackups fs).indexFile = fs.indexFile
      exact rotateBackups_indexFile fs
    · subst h
      cases writeOk with
      | false =>
          show (rotateBackups fs).indexFile = fs.indexFile
          exact rotateBackups_indexFile fs
      | true =>
          show (rotateBackups fs).indexFile = fs.indexFile
          exact rotateBackups_indexFile fs
  refine ⟨?_, hidx, ?_, ?_⟩
  · rcases hfail with h | h
    · subst h; rfl
    · subst h
      cases writeOk with
      | false => rfl
      | true => rfl
  · rcases hfail with h | h
    · subst h; rfl
    · subst h
      cases writeOk with
      | false => rfl
      | true => rfl
  · intro c hc hparse
    exact ⟨c, by rw [hidx, hc], hparse⟩

/-- Witness for C4: validation failure at a concrete file state. -/
theorem save_index_failure_safe_witness :
    ((save_index pfsW (some []) true false).1).isSome = true
    ∧ (save_index pfsW (some []) true false).2.indexFile = pfsW.indexFile
    ∧ (save_index pfsW (some []) true false).2.temp = none
    ∧ (∀ c, pfsW.indexFile = some c → (id c).isSome = true →
        ∃ c', (save_index pfsW (some []) true false).2.indexFile = some c'
          ∧ (id c').isSome = true) :=
  save_index_failure_safe id pfsW (some []) true false (Or.inr rfl)

theorem lookup_append {β : Type} (l1 l2 : List (String × β)) (k : String) :
    (l1 ++ l2).lookup k = ((l1.lookup k).orElse (fun _ => l2.lookup k)) := by
  induction l1 with
  | nil => rfl
  | cons h t ih =>
      show List.lookup k (h :: (t ++ l2)) = _
      rw [List.lookup_cons, List.lookup_cons]
      by_cases hk : k == h.1
      · simp [hk]
      · simp only [Bool.not_eq_true] at hk
        simp [hk, ih]

theorem lookup_filter_of_mem {β : Type} (l : List (String × β)) (kv : String × β)
    (p : String × β → Bool)
    (hmem : kv ∈ l) (hnodup : (l.map Prod.fst).Nodup) (hp : p kv = true) :
    (l.filter p).lookup kv.1 = some kv.2 := by
  induction l with
  | nil => cases hmem
  | cons h t ih =>
      rw [List.map_cons, List.nodup_cons] at hnodup
      rcases List.mem_cons.mp hmem with rfl | hmem'
      · rw [List.filter_cons, hp]
        show List.lookup kv.1 (kv :: t.filter p) = some kv.2
        rw [List.lookup_cons]
        simp
      · have hne : (kv.1 == h.1) = false := by
          rw [beq_eq_false_iff_ne]
          intro hk
          exact hnodup.1 (hk ▸ List.mem_map_of_mem Prod.fst hmem')
        rw [List.filter_cons]
        by_cases hph : p h = true
        · rw [hph]
          show List.lookup kv.1 (h :: t.filter p) = some kv.2
          rw [List.lookup_cons, hne]
          exact ih hmem' hnodup.2
        · rw [Bool.not_eq_true] at hph
          rw [hph]
          exact ih hmem' hnodup.2

theorem defaultIndex_keys_nodup : (defaultIndex.map Prod.fst).Nodup := by
  decide

/-- Every default-schema top-level key is present after the merge, bound
to the loaded value when the loaded document had the key and to the
default otherwise. -/
theorem mergeDefaults_lookup (loaded : PIndex) (kv : String × JVal)
    (hkv : kv ∈ defaultIndex) :
    (mergeDefaults loaded).lookup kv.1 = some ((loaded.lookup kv.1).getD kv.2) := by
  unfold mergeDefaults
  rw [lookup_append]
  cases hl : loaded.lookup kv.1 with
  | some v => rfl
  | none =>
      show (defaultIndex.filter _).lookup kv.1 = some kv.2
      exact lookup_filter_of_mem defaultIndex kv _ hkv defaultIndex_keys_nodup
        (by rw [hl]; rfl)

/-- **C5.** Given an index file that exists but fails to parse, and a
first-generation backup that parses, `_load_index` returns the backup's
content with every missing default-schema top-level key filled in, moves
the corrupted file aside to the quarantine path, and (being a total
function whose read path only degrades) never raises to the caller. -/
theorem load_index_recovers_from_backup {C : Type} (parse : C → Option PIndex)
    (fs : PFS C) (c cb : C) (loaded : PIndex)
    (hidx : fs.indexFile = some c) (hbad : parse c = none)
    (hbak : fs.bak = some cb) (hgood : parse cb = some loaded) :
    load_index parse fs
      = (mergeDefaults loaded, { fs with corrupted := some c, indexFile := none })
    ∧ ∀ kv ∈ defaultIndex,
        ((load_index parse fs).1).lookup kv.1
          = some ((loaded.lookup kv.1).getD kv.2) := by
  obtain ⟨idx, bk, bk2, corr, tmp⟩ := fs
  have hidx' : idx = some c := hidx
  have hbak' : bk = some cb := hbak
  subst hidx'
  subst hbak'
  have hload : load_index parse (PFS.mk (some c) (some cb) bk2 corr tmp)
      = (mergeDefaults loaded,
         { PFS.mk (some c) (some cb) bk2 corr tmp with
             corrupted := some c, indexFile := none }) := by
    simp [load_index, recover_from_backup, quarantineIndex, hbad, hgood]
  refine ⟨hload, ?_⟩
  intro kv hkv
  rw [hload]
  exact mergeDefaults_lookup loaded kv hkv

/-- Witness for C5 at a concrete file state: the index file exists but
does not parse, the first backup parses. -/
theorem load_index_recovers_from_backup_witness :
    load_index id pfsC5
      = (mergeDefaults [("solutions", .arr [.str "keep"])],
         { pfsC5 with corrupted := some none, indexFile := none })
    ∧ ∀ kv ∈ defaultIndex,
        ((load_index id pfsC5).1).lookup kv.1
          = some (([("solutions", JVal.arr [.str "keep"])].lookup kv.1).getD kv.2) :=
  load_index_recovers_from_backup id pfsC5 none (some [("solutions", .arr [.str "keep"])])
    [("solutions", .arr [.str "keep"])] rfl rfl rfl rfl

theorem attach_all {α : Type} (l : List α) (f : α → Bool) :
    l.attach.all (fun x => f x.1) = l.all f := by
  rw [Bool.eq_iff_iff, List.all_eq_true, List.all_eq_true]
  constructor
  · intro h a ha
    exact h ⟨a, ha⟩ (List.mem_attach l ⟨a, ha⟩)
  · intro h x _
    exact h x.1 x.2

theorem sanitizeJVal_arr (l : List JVal) :
    sanitizeJVal (.arr l) = .arr (l.map sanitizeJVal) := by
  simp only [sanitizeJVal]
  congr 1
  exact List.attach_map_coe l sanitizeJVal

theorem sanitizeJVal_obj (l : List (String × JVal)) :
    sanitizeJVal (.obj l) = .obj (l.map (fun kv => (kv.1, sanitizeJVal kv.2))) := by
  simp only [sanitizeJVal]
  congr 1
  exact List.attach_map_coe l (fun kv => (kv.1, sanitizeJVal kv.2))

theorem stringsOK_arr (l : List JVal) :
    stringsOK (.arr l) = l.all stringsOK := by
  simp only [stringsOK]
  exact attach_all l stringsOK

theorem stringsOK_obj (l : List (String × JVal)) :
    stringsOK (.obj l) = l.all (fun kv => stringsOK kv.2) := by
  simp only [stringsOK]
  exact attach_all l (fun kv => stringsOK kv.2)

theorem sanitize_string_good (s : String) : goodString (sanitize_string s) = true := by
  have hmarker : ∀ c ∈ ("...[truncated]" : String).data, (!(badCtrl c)) = true := by
    decide
  have hfil : ∀ c ∈ s.data.filter (fun c => !(badCtrl c)), (!(badCtrl c)) = true := by
    intro c hc
    exact (List.mem_filter.mp hc).2
  unfold sanitize_string
  by_cases hlen : (s.data.filter (fun c => !(badCtrl c))).length > 10000
  · rw [if_pos hlen]
    unfold goodString
    rw [Bool.and_eq_true]
    constructor
    · rw [List.all_eq_true]
      intro c hc
      have hdata : (String.mk ((s.data.filter (fun c => !(badCtrl c))).take 10000)
          ++ "...[truncated]").data
          = (s.data.filter (fun c => !(badCtrl c))).take 10000
            ++ ("...[truncated]" : String).data := rfl
      rw [hdata] at hc
      rcases List.mem_append.mp hc with h | h
      · exact hfil c (List.mem_of_mem_take h)
      · exact hmarker c h
    · rw [decide_eq_true_iff]
      have hdata : (String.mk ((s.data.filter (fun c => !(badCtrl c))).take 10000)
          ++ "...[truncated]").length
          = ((s.data.filter (fun c => !(badCtrl c))).take 10000).length
            + ("...[truncated]" : String).length := by
        show ((s.data.filter (fun c => !(badCtrl c))).take 10000
          ++ ("...[truncated]" : String).data).length = _
        rw [List.length_append]
        rfl
      rw [hdata, List.length_take]
      have hm : ("...[truncated]" : String).length = 14 := rfl
      omega
  · rw [if_neg hlen]
    unfold goodString
    rw [Bool.and_eq_true]
    constructor
    · rw [List.all_eq_true]
      exact hfil
    · rw [decide_eq_true_iff]
      show (s.data.filter (fun c => !(badCtrl c))).length ≤ 10014
      omega

theorem stringsOK_sanitize : (v : JVal) → stringsOK (sanitizeJVal v) = true
  | .str s => by
      simp only [sanitizeJVal, stringsOK]
      exact sanitize_string_good s
  | .atom => by simp only [sanitizeJVal, stringsOK]
  | .arr l => by
      rw [sanitizeJVal_arr, stringsOK_arr, List.all_eq_true]
      intro x hx
      obtain ⟨y, hy, hyx⟩ := List.mem_map.mp hx
      rw [← hyx]
      exact stringsOK_sanitize y
  | .obj l => by
      rw [sanitizeJVal_obj, stringsOK_obj, List.all_eq_true]
      intro x hx
      obtain ⟨kv, hkv, hkvx⟩ := List.mem_map.mp hx
      rw [← hkvx]
      exact stringsOK_sanitize kv.2
termination_by v => sizeOf v
decreasing_by
  · have h1 := List.sizeOf_lt_of_mem hy
    simp only [JVal.arr.sizeOf_spec]
    omega
  · have h1 := List.sizeOf_lt_of_mem hkv
    have h2 : sizeOf kv.2 < sizeOf kv := by
      obtain ⟨a, b⟩ := kv
      simp only [Prod.mk.sizeOf_spec]
      omega
    simp only [JVal.obj.sizeOf_spec]
    omega

/-- **C8 (amended).** After sanitization every string value anywhere in
the index (recursively through nested dicts and lists) contains no
disallowed control character (newline, tab — and also carriage return —
are kept), and has length at most 10014 = 10000 (content cap) + 14 (the
appended `'...[truncated]'` marker) — not 10000, because the code caps at
10000 characters and *then appends* the marker. -/
theorem sanitize_index_strings_bounded (idx : PIndex) :
    ∀ kv ∈ sanitize_index idx, stringsOK kv.2 = true := by
  intro kv hkv
  obtain ⟨kv0, _, hkvx⟩ := List.mem_map.mp hkv
  rw [← hkvx]
  exact stringsOK_sanitize kv0.2

/-- Witness for C8 at a concrete one-entry index. -/
theorem sanitize_index_strings_bounded_witness :
    stringsOK (("solutions", sanitizeJVal (JVal.str "hello")) : String × JVal).2 = true :=
  sanitize_index_strings_bounded [("solutions", JVal.str "hello")]
    ("solutions", sanitizeJVal (JVal.str "hello"))
    (List.mem_singleton.mpr rfl)

/-- **C8 (counterexample).** The claim's "length at most the fixed
10,000-character bound" fails: a 10001-character string sanitizes to
exactly 10014 characters (10000 kept plus the appended marker). -/
theorem sanitize_string_exceeds_bound :
    (sanitize_string (String.mk (List.replicate 10001 'a'))).length = 10014 ∧
    10000 < (sanitize_string (String.mk (List.replicate 10001 'a'))).length := by
  have hfil : ((String.mk (List.replicate 10001 'a')).data.filter
      (fun c => !(badCtrl c))) = List.replicate 10001 'a' := by
    apply List.filter_eq_self.mpr
    intro c hc
    rw [List.eq_of_mem_replicate hc]
    decide
  have hlen : (sanitize_string (String.mk (List.replicate 10001 'a'))).length = 10014 := by
    unfold sanitize_string
    rw [hfil, if_pos (by rw [List.length_replicate]; omega)]
    show ((List.replicate 10001 'a').take 10000
      ++ ("...[truncated]" : String).data).length = 10014
    rw [List.length_append, List.length_take, List.length_replicate]
    rfl
  exact ⟨hlen, by omega⟩

/-- **C9.** `detect_auto_pin("ssh root@203.0.113.5")` fires the first
pattern (`ssh\s+[\w.-]+@[\w.-]+`): category `credentials`,
`sensitive = true`, and the matched text is the whole SSH connection
string. -/
theorem detect_auto_pin_ssh :
    detect_auto_pin "ssh root@203.0.113.5"
      = some { category := "credentials"
               description := "SSH connection"
               matched := "ssh root@203.0.113.5".data
               sensitive := true } := by
  decide

end Memberberries